import Mathlib

/-!
Verification of the `astr` crate: a fixed-capacity string type `AStr<LEN>`
wrapping a byte array `[u8; LEN]` that always holds valid UTF-8.

Bytes are modelled as `Nat` (each < 256 in valid data), byte arrays
`[u8; LEN]` as length-indexed lists `{l : List Nat // l.length = LEN}`,
`usize` arithmetic as `Nat` with explicit overflow checks against `2 ^ 64`,
and panics (`assert!` failures) as `Option.none` results.
-/

namespace AstrVerify

/-- The number of `usize` values; `checked_add` fails at this bound. -/
def USIZE : Nat := 2 ^ 64

/-- Model of `char::len_utf8`: byte length of the UTF-8 encoding of code
point `c` (1 for `c < 0x80`, 2 for `c < 0x800`, 3 for `c < 0x10000`,
else 4). -/
def lenUtf8 (c : Nat) : Nat :=
  if c < 0x80 then 1
  else if c < 0x800 then 2
  else if c < 0x10000 then 3
  else 4

/-- A Unicode scalar value (the values inhabiting Rust `char`): any code
point except the surrogate range `0xD800..0xE000`. -/
def IsScalar (c : Nat) : Prop :=
  c < 0xD800 ∨ (0xE000 ≤ c ∧ c < 0x110000)

instance (c : Nat) : Decidable (IsScalar c) := by
  unfold IsScalar
  exact inferInstance

/-- Model of `encode_utf8_raw` (lib.rs, bottom): produce the 4-byte buffer
whose first `len_utf8 c` bytes are the UTF-8 encoding of `c`.  The source
matches on `c.len_utf8()` and assembles bytes with shifts, masks and tag
bits; the `as u8` cast in the 1-byte arm is `% 256`, the casts in the other
arms apply to already-masked values below 256 and are the identity. -/
def encodeUtf8Raw (c : Nat) : List Nat :=
  match lenUtf8 c with
  | 1 => [c % 256, 0, 0, 0]
  | 2 => [((c >>> 6) &&& 0x1F) ||| 0xC0, (c &&& 0x3F) ||| 0x80, 0, 0]
  | 3 => [((c >>> 12) &&& 0x0F) ||| 0xE0, ((c >>> 6) &&& 0x3F) ||| 0x80,
          (c &&& 0x3F) ||| 0x80, 0]
  | _ => [((c >>> 18) &&& 0x07) ||| 0xF0, ((c >>> 12) &&& 0x3F) ||| 0x80,
          ((c >>> 6) &&& 0x3F) ||| 0x80, (c &&& 0x3F) ||| 0x80]

/-- Modelled from the spec: the standard UTF-8 encoding of code point `c`
(leading tags `0xxxxxxx` / `110xxxxx` / `1110xxxx` / `11110xxx`,
continuation tag `10xxxxxx`, code point bits distributed high-to-low).
Used as the reference the code-side `encodeUtf8Raw` is compared with. -/
def utf8EncodeSpec (c : Nat) : List Nat :=
  if c < 0x80 then [c]
  else if c < 0x800 then [0xC0 + c / 64, 0x80 + c % 64]
  else if c < 0x10000 then
    [0xE0 + c / 4096, 0x80 + c / 64 % 64, 0x80 + c % 64]
  else
    [0xF0 + c / 262144, 0x80 + c / 4096 % 64, 0x80 + c / 64 % 64,
     0x80 + c % 64]

/-- Valid UTF-8 byte sequences: concatenations of encodings of Unicode
scalar values.  This is the meaning of "valid UTF-8" in the spec. -/
inductive Utf8Chain : List Nat → Prop where
  | nil : Utf8Chain []
  | cons (c : Nat) (rest : List Nat) : IsScalar c → Utf8Chain rest →
      Utf8Chain (utf8EncodeSpec c ++ rest)

/-- Model of core Rust `UTF8_CHAR_WIDTH` table: expected sequence length
keyed by the first byte (0 marks an invalid first byte). -/
def utf8CharWidth (b : Nat) : Nat :=
  if b < 0x80 then 1
  else if b < 0xC2 then 0
  else if b < 0xE0 then 2
  else if b < 0xF0 then 3
  else if b < 0xF5 then 4
  else 0

/-- A UTF-8 continuation byte: `10xxxxxx`, i.e. `0x80..=0xBF`. -/
def isCont (b : Nat) : Prop := 0x80 ≤ b ∧ b < 0xC0

instance (b : Nat) : Decidable (isCont b) := by
  unfold isCont
  exact inferInstance

/-- Valid (first, second) byte pairs of a 3-byte sequence, per core Rust
`run_utf8_validation` (excludes overlong forms and surrogates). -/
def valid3Pair (b b2 : Nat) : Prop :=
  (b = 0xE0 ∧ 0xA0 ≤ b2 ∧ b2 ≤ 0xBF) ∨
  (0xE1 ≤ b ∧ b ≤ 0xEC ∧ 0x80 ≤ b2 ∧ b2 ≤ 0xBF) ∨
  (b = 0xED ∧ 0x80 ≤ b2 ∧ b2 ≤ 0x9F) ∨
  (0xEE ≤ b ∧ b ≤ 0xEF ∧ 0x80 ≤ b2 ∧ b2 ≤ 0xBF)

instance (b b2 : Nat) : Decidable (valid3Pair b b2) := by
  unfold valid3Pair
  exact inferInstance

/-- Valid (first, second) byte pairs of a 4-byte sequence, per core Rust
`run_utf8_validation` (excludes overlong forms and values above
`0x10FFFF`). -/
def valid4Pair (b b2 : Nat) : Prop :=
  (b = 0xF0 ∧ 0x90 ≤ b2 ∧ b2 ≤ 0xBF) ∨
  (0xF1 ≤ b ∧ b ≤ 0xF3 ∧ 0x80 ≤ b2 ∧ b2 ≤ 0xBF) ∨
  (b = 0xF4 ∧ 0x80 ≤ b2 ∧ b2 ≤ 0x8F)

instance (b b2 : Nat) : Decidable (valid4Pair b b2) := by
  unfold valid4Pair
  exact inferInstance

/-- Model of `core::str::Utf8Error`: offset of the end of the last complete
valid sequence, and (when not a truncated tail) the length of the invalid
sequence fragment to report. -/
structure Utf8Err where
  validUpTo : Nat
  errorLen : Option Nat
deriving DecidableEq

/-- Shift an error report by `k` bytes of already-validated input. -/
def shiftErr (k : Nat) (e : Utf8Err) : Utf8Err :=
  ⟨k + e.validUpTo, e.errorLen⟩

/-- Model of core Rust `run_utf8_validation` (the validator behind
`core::str::from_utf8`): scan byte sequences, returning `none` on success
or the first error.  Offsets are accumulated through `shiftErr` instead of
a running index; error arms mirror the `err!` sites of the source
(`errorLen = none` for a truncated final sequence, `some k` to skip `k`
bytes of an invalid sequence). -/
def utf8Validate : List Nat → Option Utf8Err
  | [] => none
  | b :: rest =>
    if b < 0x80 then (utf8Validate rest).map (shiftErr 1)
    else if utf8CharWidth b = 2 then
      match rest with
      | [] => some ⟨0, none⟩
      | b2 :: rest2 =>
        if isCont b2 then (utf8Validate rest2).map (shiftErr 2)
        else some ⟨0, some 1⟩
    else if utf8CharWidth b = 3 then
      match rest with
      | [] => some ⟨0, none⟩
      | b2 :: rest2 =>
        if valid3Pair b b2 then
          match rest2 with
          | [] => some ⟨0, none⟩
          | b3 :: rest3 =>
            if isCont b3 then (utf8Validate rest3).map (shiftErr 3)
            else some ⟨0, some 2⟩
        else some ⟨0, some 1⟩
    else if utf8CharWidth b = 4 then
      match rest with
      | [] => some ⟨0, none⟩
      | b2 :: rest2 =>
        if valid4Pair b b2 then
          match rest2 with
          | [] => some ⟨0, none⟩
          | b3 :: rest3 =>
            if isCont b3 then
              match rest3 with
              | [] => some ⟨0, none⟩
              | b4 :: rest4 =>
                if isCont b4 then (utf8Validate rest4).map (shiftErr 4)
                else some ⟨0, some 3⟩
            else some ⟨0, some 2⟩
        else some ⟨0, some 1⟩
    else some ⟨0, some 1⟩

/-- Model of `AStr<LEN>`: a byte array of statically known length `LEN`
(the UTF-8 validity invariant is tracked by the theorems, as in the source
it is a safety invariant, not a type-level one). -/
def AStr (LEN : Nat) := {l : List Nat // l.length = LEN}

instance (LEN : Nat) : DecidableEq (AStr LEN) :=
  inferInstanceAs (DecidableEq {l : List Nat // l.length = LEN})

/-- Model of `AStr::as_bytes`: the underlying byte array. -/
def AStr.as_bytes {LEN : Nat} (a : AStr LEN) : List Nat := a.val

/-- Model of `AStr::as_str`: the bytes reinterpreted as text via
`str::from_utf8_unchecked`, i.e. the same byte sequence viewed as a
string. -/
def AStr.as_str {LEN : Nat} (a : AStr LEN) : List Nat := a.val

/-- Model of `AStrError`: `Utf8` wraps the validator error,
`Slice` wraps `TryFromSliceError` (a unit struct, no payload). -/
inductive AStrError where
  | utf8 (e : Utf8Err)
  | slice
deriving DecidableEq

/-- Model of `AStr::try_from_utf8_array_ref`: run UTF-8 validation over the
exact-size array; on success reinterpret it (no copy), on failure report
the `Utf8` error. -/
def AStr.try_from_utf8_array_ref (LEN : Nat) (arr : List Nat)
    (h : arr.length = LEN) : Except AStrError (AStr LEN) :=
  match utf8Validate arr with
  | some e => .error (.utf8 e)
  | none => .ok ⟨arr, h⟩

/-- Model of `AStr::try_from_utf8`: `slice.try_into()?` checks the length
first (a `TryFromSliceError` on mismatch), then defers to
`try_from_utf8_array_ref`. -/
def AStr.try_from_utf8 (LEN : Nat) (s : List Nat) :
    Except AStrError (AStr LEN) :=
  if h : s.length = LEN then AStr.try_from_utf8_array_ref LEN s h
  else .error .slice

/-- Model of `AStr::try_from_str_ref`: input is a `&str`, hence valid UTF-8
by construction; only the length is checked (`as_bytes().try_into()?`). -/
def AStr.try_from_str_ref (LEN : Nat) (s : List Nat) :
    Except AStrError (AStr LEN) :=
  if h : s.length = LEN then .ok ⟨s, h⟩
  else .error .slice

/-- Model of `AStr::concat_unchecked` (safety precondition
`RET_LEN = LEN + B_LEN` is carried as a hypothesis): fill a fresh
`RET_LEN`-byte buffer with `a_bytes[i]` for `i < LEN` and
`b_bytes[i - LEN]` for `LEN ≤ i < RET_LEN`, mirroring the two `while`
loops of the source. -/
def AStr.concat_unchecked (RET_LEN : Nat) {LEN B_LEN : Nat}
    (a : AStr LEN) (b : AStr B_LEN) : AStr RET_LEN :=
  ⟨List.ofFn (fun i : Fin RET_LEN =>
      if (i : Nat) < LEN then (AStr.as_bytes a).getD i 0
      else (AStr.as_bytes b).getD ((i : Nat) - LEN) 0),
   by simp⟩

/-- Model of `AStr::concat`: `assert!(LEN + B_LEN == RET_LEN)` then
`concat_unchecked`; the `assert!` panic on mismatch is modelled as
`none`. -/
def AStr.concat (RET_LEN : Nat) {LEN B_LEN : Nat}
    (a : AStr LEN) (b : AStr B_LEN) : Option (AStr RET_LEN) :=
  if LEN + B_LEN = RET_LEN then some (AStr.concat_unchecked RET_LEN a b)
  else none

/-- The buffer built by `AStr::repeat`: destination byte `i` is
`char_bytes[i % char_len]` where `char_bytes = encode_utf8_raw c`,
mirroring the `while` loop of the source. -/
def repeatBytes (LEN c : Nat) : List Nat :=
  List.ofFn (fun i : Fin LEN => (encodeUtf8Raw c).getD ((i : Nat) % lenUtf8 c) 0)

/-- Model of `AStr::repeat`: `assert!(LEN % char_len == 0)` (panic on
violation, modelled as `none`) then tile the encoded bytes of `c` across
the buffer. -/
def AStr.repeat (LEN c : Nat) : Option (AStr LEN) :=
  if LEN % lenUtf8 c = 0 then some ⟨repeatBytes LEN c, by simp [repeatBytes]⟩
  else none

/-- Model of `FmtBuilder<LEN>`: cursor `len` plus the scratch buffer
(source field `partial`, renamed since `partial` is a Lean keyword). -/
structure FmtBuilder (LEN : Nat) where
  len : Nat
  buf : AStr LEN

/-- Model of `str::is_char_boundary`: true at 0; at `i` within bounds the
byte must not be a continuation byte (`(b as i8) >= -64`, i.e. `b < 0x80`
or `b ≥ 0xC0`); past-the-end positions are boundaries only at exactly the
length. -/
def isCharBoundary (l : List Nat) (i : Nat) : Prop :=
  i = 0 ∨ (match l[i]? with
    | some b => b < 0x80 ∨ 0xC0 ≤ b
    | none => i = l.length)

instance (l : List Nat) (i : Nat) : Decidable (isCharBoundary l i) := by
  unfold isCharBoundary
  cases l[i]? <;> exact inferInstance

theorem isCharBoundary_le {l : List Nat} {i : Nat}
    (h : isCharBoundary l i) : i ≤ l.length := by
  rcases h with h0 | h
  · omega
  · rcases hg : l[i]? with _ | b
    · rw [hg] at h
      omega
    · exact Nat.le_of_lt (List.getElem?_eq_some_iff.mp hg).choose

/-- Model of `FmtBuilder::new`: cursor 0 and scratch buffer
`AStr::repeat('\0')` — the all-zero fill, which never panics since the nul
character has UTF-8 length 1 (see `repeat_nul` below). -/
def FmtBuilder.new (LEN : Nat) : FmtBuilder LEN :=
  ⟨0, ⟨repeatBytes LEN 0, by simp [repeatBytes]⟩⟩

/-- `FmtBuilder::new`'s buffer is exactly what `AStr::repeat('\0')`
returns (the `repeat` call in the source cannot panic). -/
theorem repeat_nul (LEN : Nat) :
    AStr.repeat LEN 0 = some (FmtBuilder.new LEN).buf := by
  simp [AStr.repeat, FmtBuilder.new, lenUtf8, Nat.mod_one]

/-- Model of `FmtBuilder::finalize`: succeed with the buffer exactly when
the cursor equals `LEN`, otherwise `fmt::Error`. -/
def FmtBuilder.finalize {LEN : Nat} (b : FmtBuilder LEN) :
    Except Unit (AStr LEN) :=
  if b.len = LEN then .ok b.buf else .error ()

/-- Model of `<FmtBuilder as fmt::Write>::write_str`, step by step:
1. `self.len = self.len.checked_add(s_len).ok_or(Error)?` — the cursor is
   advanced BEFORE the window checks (on overflow nothing changes);
2. `self.partial.get_mut(offset..).ok_or(Error)?` — a char-boundary check
   at `offset`, yielding the tail `drop offset`;
3. `rest.get_mut(..s_len).ok_or(Error)?` — a char-boundary check at
   `s_len` inside that tail;
4. `copy_from_slice` — overwrite bytes `[offset, offset + s_len)`.
Returns the updated builder plus the `fmt::Result`. -/
def FmtBuilder.write_str {LEN : Nat} (b : FmtBuilder LEN) (s : List Nat) :
    FmtBuilder LEN × Except Unit Unit :=
  if b.len + s.length < USIZE then
    if h1 : isCharBoundary (AStr.as_bytes b.buf) b.len then
      if h2 : isCharBoundary ((AStr.as_bytes b.buf).drop b.len) s.length then
        (⟨b.len + s.length,
          ⟨(AStr.as_bytes b.buf).take b.len ++ s ++
              (AStr.as_bytes b.buf).drop (b.len + s.length), by
            have hb := b.buf.property
            have o1 := isCharBoundary_le h1
            have o2 := isCharBoundary_le h2
            simp only [AStr.as_bytes, List.length_append, List.length_take,
              List.length_drop] at *
            omega⟩⟩, .ok ())
      else (⟨b.len + s.length, b.buf⟩, .error ())
    else (⟨b.len + s.length, b.buf⟩, .error ())
  else (b, .error ())

/-- Run a sequence of `write_str` calls, stopping at the first error (as
the `write!` machinery does). -/
def writeAll {LEN : Nat} (b : FmtBuilder LEN) :
    List (List Nat) → FmtBuilder LEN × Except Unit Unit
  | [] => (b, .ok ())
  | s :: rest =>
    match FmtBuilder.write_str b s with
    | (b', .ok _) => writeAll b' rest
    | (b', .error e) => (b', .error e)

/-- Model of `AStr::try_from_fmt`: stream the chunks the `Display`
implementation emits into a fresh builder, then finalize; any write error
or finalize error is `fmt::Error`. -/
def AStr.try_from_fmt (LEN : Nat) (chunks : List (List Nat)) :
    Except Unit (AStr LEN) :=
  match writeAll (FmtBuilder.new LEN) chunks with
  | (b, .ok _) => FmtBuilder.finalize b
  | (_, .error _) => .error ()

/-- The builder invariant of states produced by `new` and successful
writes: the cursor is within capacity and the unwritten tail still holds
the nul placeholder bytes. -/
def BuilderInv {LEN : Nat} (b : FmtBuilder LEN) : Prop :=
  b.len ≤ LEN ∧ ∀ x ∈ (AStr.as_bytes b.buf).drop b.len, x = 0

/-! ### Arithmetic helpers: masks, shifts and tag bits as `/`, `%`, `+` -/

theorem and31 (x : Nat) : x &&& 31 = x % 32 := by
  have h := Nat.and_pow_two_sub_one_eq_mod x 5
  norm_num at h
  exact h

theorem and63 (x : Nat) : x &&& 63 = x % 64 := by
  have h := Nat.and_pow_two_sub_one_eq_mod x 6
  norm_num at h
  exact h

theorem and15 (x : Nat) : x &&& 15 = x % 16 := by
  have h := Nat.and_pow_two_sub_one_eq_mod x 4
  norm_num at h
  exact h

theorem and7 (x : Nat) : x &&& 7 = x % 8 := by
  have h := Nat.and_pow_two_sub_one_eq_mod x 3
  norm_num at h
  exact h

theorem shr6 (x : Nat) : x >>> 6 = x / 64 := by
  have h := Nat.shiftRight_eq_div_pow x 6
  norm_num at h
  exact h

theorem shr12 (x : Nat) : x >>> 12 = x / 4096 := by
  have h := Nat.shiftRight_eq_div_pow x 12
  norm_num at h
  exact h

theorem shr18 (x : Nat) : x >>> 18 = x / 262144 := by
  have h := Nat.shiftRight_eq_div_pow x 18
  norm_num at h
  exact h

theorem lor128 {x : Nat} (h : x < 64) : x ||| 128 = 128 + x := by
  interval_cases x <;> rfl

theorem lor192 {x : Nat} (h : x < 32) : x ||| 192 = 192 + x := by
  interval_cases x <;> rfl

theorem lor224 {x : Nat} (h : x < 16) : x ||| 224 = 224 + x := by
  interval_cases x <;> rfl

theorem lor240 {x : Nat} (h : x < 8) : x ||| 240 = 240 + x := by
  interval_cases x <;> rfl

/-! ### The encoder agrees with the standard UTF-8 encoding -/

theorem length_utf8EncodeSpec (c : Nat) :
    (utf8EncodeSpec c).length = lenUtf8 c := by
  unfold utf8EncodeSpec lenUtf8
  split_ifs <;> rfl

theorem lenUtf8_pos (c : Nat) : 1 ≤ lenUtf8 c := by
  unfold lenUtf8
  split_ifs <;> omega

theorem lenUtf8_le_four (c : Nat) : lenUtf8 c ≤ 4 := by
  unfold lenUtf8
  split_ifs <;> omega

/-- The first `lenUtf8 c` bytes of the raw encoder output are exactly the
standard UTF-8 encoding of `c`. -/
theorem encodeUtf8Raw_take (c : Nat) (hc : c < 0x110000) :
    (encodeUtf8Raw c).take (lenUtf8 c) = utf8EncodeSpec c := by
  by_cases h1 : c < 0x80
  · have hl : lenUtf8 c = 1 := by simp [lenUtf8, h1]
    have hm : encodeUtf8Raw c = [c % 256, 0, 0, 0] := by
      unfold encodeUtf8Raw
      rw [hl]
    rw [hm, hl]
    unfold utf8EncodeSpec
    rw [if_pos h1]
    simp [List.take, Nat.mod_eq_of_lt (show c < 256 by omega)]
  · by_cases h2 : c < 0x800
    · have hl : lenUtf8 c = 2 := by simp [lenUtf8, h1, h2]
      have hm : encodeUtf8Raw c =
          [((c >>> 6) &&& 0x1F) ||| 0xC0, (c &&& 0x3F) ||| 0x80, 0, 0] := by
        unfold encodeUtf8Raw
        rw [hl]
      rw [hm, hl]
      unfold utf8EncodeSpec
      rw [if_neg h1, if_pos h2]
      simp (disch := omega) only [shr6, and31, and63, lor192, lor128,
        Nat.mod_eq_of_lt]
      rfl
    · by_cases h3 : c < 0x10000
      · have hl : lenUtf8 c = 3 := by simp [lenUtf8, h1, h2, h3]
        have hm : encodeUtf8Raw c =
            [((c >>> 12) &&& 0x0F) ||| 0xE0, ((c >>> 6) &&& 0x3F) ||| 0x80,
             (c &&& 0x3F) ||| 0x80, 0] := by
          unfold encodeUtf8Raw
          rw [hl]
        rw [hm, hl]
        unfold utf8EncodeSpec
        rw [if_neg h1, if_neg h2, if_pos h3]
        simp (disch := omega) only [shr12, shr6, and15, and63, lor224,
          lor128, Nat.mod_eq_of_lt]
        rfl
      · have hl : lenUtf8 c = 4 := by simp [lenUtf8, h1, h2, h3]
        have hm : encodeUtf8Raw c =
            [((c >>> 18) &&& 0x07) ||| 0xF0, ((c >>> 12) &&& 0x3F) ||| 0x80,
             ((c >>> 6) &&& 0x3F) ||| 0x80, (c &&& 0x3F) ||| 0x80] := by
          unfold encodeUtf8Raw
          rw [hl]
        rw [hm, hl]
        unfold utf8EncodeSpec
        rw [if_neg h1, if_neg h2, if_neg h3]
        simp (disch := omega) only [shr18, shr12, shr6, and7, and63, lor240,
          lor128, Nat.mod_eq_of_lt]
        rfl

/-! ### Validator correctness -/

theorem scalar_lt {c : Nat} (hc : IsScalar c) : c < 0x110000 := by
  rcases hc with h | h <;> omega

/-- Stepping the validator over one complete encoded scalar: it consumes
exactly the encoding and shifts the recursive result. -/
theorem validate_append_enc (c : Nat) (rest : List Nat) (hc : IsScalar c) :
    utf8Validate (utf8EncodeSpec c ++ rest) =
      (utf8Validate rest).map (shiftErr (lenUtf8 c)) := by
  have hc' : c < 0x110000 := scalar_lt hc
  by_cases h1 : c < 0x80
  · have he : utf8EncodeSpec c = [c] := by
      unfold utf8EncodeSpec
      rw [if_pos h1]
    have hl : lenUtf8 c = 1 := by simp [lenUtf8, h1]
    rw [he, hl]
    simp only [List.cons_append, List.nil_append]
    rw [utf8Validate.eq_def]
    simp only [if_pos h1]
  · by_cases h2 : c < 0x800
    · have he : utf8EncodeSpec c = [0xC0 + c / 64, 0x80 + c % 64] := by
        unfold utf8EncodeSpec
        rw [if_neg h1, if_pos h2]
      have hl : lenUtf8 c = 2 := by simp [lenUtf8, h1, h2]
      have hw : utf8CharWidth (0xC0 + c / 64) = 2 := by
        unfold utf8CharWidth
        split_ifs <;> omega
      have hcont : isCont (0x80 + c % 64) := ⟨by omega, by omega⟩
      rw [he, hl]
      simp only [List.cons_append, List.nil_append]
      rw [utf8Validate.eq_def]
      simp only [if_neg (show ¬ (0xC0 + c / 64 < 0x80) by omega),
        if_pos hw, if_pos hcont]
    · by_cases h3 : c < 0x10000
      · have he : utf8EncodeSpec c =
            [0xE0 + c / 4096, 0x80 + c / 64 % 64, 0x80 + c % 64] := by
          unfold utf8EncodeSpec
          rw [if_neg h1, if_neg h2, if_pos h3]
        have hl : lenUtf8 c = 3 := by simp [lenUtf8, h1, h2, h3]
        have hw2 : ¬ utf8CharWidth (0xE0 + c / 4096) = 2 := by
          unfold utf8CharWidth
          split_ifs <;> omega
        have hw : utf8CharWidth (0xE0 + c / 4096) = 3 := by
          unfold utf8CharWidth
          split_ifs <;> omega
        have hpair : valid3Pair (0xE0 + c / 4096) (0x80 + c / 64 % 64) := by
          unfold valid3Pair
          rcases hc with h | h <;> omega
        have hcont : isCont (0x80 + c % 64) := ⟨by omega, by omega⟩
        rw [he, hl]
        simp only [List.cons_append, List.nil_append]
        rw [utf8Validate.eq_def]
        simp only [if_neg (show ¬ (0xE0 + c / 4096 < 0x80) by omega),
          if_neg hw2, if_pos hw, if_pos hpair, if_pos hcont]
      · have he : utf8EncodeSpec c =
            [0xF0 + c / 262144, 0x80 + c / 4096 % 64, 0x80 + c / 64 % 64,
             0x80 + c % 64] := by
          unfold utf8EncodeSpec
          rw [if_neg h1, if_neg h2, if_neg h3]
        have hl : lenUtf8 c = 4 := by simp [lenUtf8, h1, h2, h3]
        have hw2 : ¬ utf8CharWidth (0xF0 + c / 262144) = 2 := by
          unfold utf8CharWidth
          split_ifs <;> omega
        have hw3 : ¬ utf8CharWidth (0xF0 + c / 262144) = 3 := by
          unfold utf8CharWidth
          split_ifs <;> omega
        have hw : utf8CharWidth (0xF0 + c / 262144) = 4 := by
          unfold utf8CharWidth
          split_ifs <;> omega
        have hpair : valid4Pair (0xF0 + c / 262144) (0x80 + c / 4096 % 64) := by
          unfold valid4Pair
          omega
        have hcont3 : isCont (0x80 + c / 64 % 64) := ⟨by omega, by omega⟩
        have hcont4 : isCont (0x80 + c % 64) := ⟨by omega, by omega⟩
        rw [he, hl]
        simp only [List.cons_append, List.nil_append]
        rw [utf8Validate.eq_def]
        simp only [if_neg (show ¬ (0xF0 + c / 262144 < 0x80) by omega),
          if_neg hw2, if_neg hw3, if_pos hw, if_pos hpair, if_pos hcont3,
          if_pos hcont4]

/-- Every nonempty byte sequence either begins with the complete encoding
of some scalar value, or the validator reports an error at offset 0. -/
theorem head_step (b : Nat) (rest : List Nat) :
    (∃ c t, IsScalar c ∧ b :: rest = utf8EncodeSpec c ++ t) ∨
    (∃ el, utf8Validate (b :: rest) = some ⟨0, el⟩) := by
  by_cases h1 : b < 0x80
  · exact Or.inl ⟨b, rest, Or.inl (by omega), by simp [utf8EncodeSpec, h1]⟩
  by_cases hB : b < 0xC2
  · have hw : utf8CharWidth b = 0 := by
      unfold utf8CharWidth
      split_ifs <;> omega
    refine Or.inr ⟨some 1, ?_⟩
    rw [utf8Validate.eq_def]
    simp only [if_neg h1, if_neg (show ¬ utf8CharWidth b = 2 by omega),
      if_neg (show ¬ utf8CharWidth b = 3 by omega),
      if_neg (show ¬ utf8CharWidth b = 4 by omega)]
  by_cases hC : b < 0xE0
  · have hw : utf8CharWidth b = 2 := by
      unfold utf8CharWidth
      split_ifs <;> omega
    cases rest with
    | nil =>
      refine Or.inr ⟨none, ?_⟩
      rw [utf8Validate.eq_def]
      simp only [if_neg h1, if_pos hw]
    | cons b2 rest2 =>
      by_cases hcont : isCont b2
      · obtain ⟨hcl, hch⟩ := hcont
        refine Or.inl ⟨(b - 0xC0) * 64 + (b2 - 0x80), rest2,
          Or.inl (by omega), ?_⟩
        have he : utf8EncodeSpec ((b - 0xC0) * 64 + (b2 - 0x80)) =
            [0xC0 + ((b - 0xC0) * 64 + (b2 - 0x80)) / 64,
             0x80 + ((b - 0xC0) * 64 + (b2 - 0x80)) % 64] := by
          unfold utf8EncodeSpec
          rw [if_neg (by omega), if_pos (by omega)]
        simp only [he, List.cons_append, List.nil_append, List.cons.injEq]
        refine ⟨by omega, by omega, trivial⟩
      · refine Or.inr ⟨some 1, ?_⟩
        rw [utf8Validate.eq_def]
        simp only [if_neg h1, if_pos hw, if_neg hcont]
  by_cases hD : b < 0xF0
  · have hw : utf8CharWidth b = 3 := by
      unfold utf8CharWidth
      split_ifs <;> omega
    have hw2 : ¬ utf8CharWidth b = 2 := by omega
    cases rest with
    | nil =>
      refine Or.inr ⟨none, ?_⟩
      rw [utf8Validate.eq_def]
      simp only [if_neg h1, if_neg hw2, if_pos hw]
    | cons b2 rest2 =>
      by_cases hpair : valid3Pair b b2
      · cases rest2 with
        | nil =>
          refine Or.inr ⟨none, ?_⟩
          rw [utf8Validate.eq_def]
          simp only [if_neg h1, if_neg hw2, if_pos hw, if_pos hpair]
        | cons b3 rest3 =>
          by_cases hcont3 : isCont b3
          · obtain ⟨h3l, h3h⟩ := hcont3
            have hpair' := hpair
            unfold valid3Pair at hpair'
            refine Or.inl ⟨(b - 0xE0) * 4096 + (b2 - 0x80) * 64 + (b3 - 0x80),
              rest3, by unfold IsScalar; omega, ?_⟩
            have he : utf8EncodeSpec
                ((b - 0xE0) * 4096 + (b2 - 0x80) * 64 + (b3 - 0x80)) =
                [0xE0 + ((b - 0xE0) * 4096 + (b2 - 0x80) * 64 + (b3 - 0x80)) / 4096,
                 0x80 + ((b - 0xE0) * 4096 + (b2 - 0x80) * 64 + (b3 - 0x80)) / 64 % 64,
                 0x80 + ((b - 0xE0) * 4096 + (b2 - 0x80) * 64 + (b3 - 0x80)) % 64] := by
              unfold utf8EncodeSpec
              rw [if_neg (by omega), if_neg (by omega), if_pos (by omega)]
            simp only [he, List.cons_append, List.nil_append, List.cons.injEq]
            refine ⟨by omega, by omega, by omega, trivial⟩
          · refine Or.inr ⟨some 2, ?_⟩
            rw [utf8Validate.eq_def]
            simp only [if_neg h1, if_neg hw2, if_pos hw, if_pos hpair,
              if_neg hcont3]
      · refine Or.inr ⟨some 1, ?_⟩
        rw [utf8Validate.eq_def]
        simp only [if_neg h1, if_neg hw2, if_pos hw, if_neg hpair]
  by_cases hE : b < 0xF5
  · have hw : utf8CharWidth b = 4 := by
      unfold utf8CharWidth
      split_ifs <;> omega
    have hw2 : ¬ utf8CharWidth b = 2 := by omega
    have hw3 : ¬ utf8CharWidth b = 3 := by omega
    cases rest with
    | nil =>
      refine Or.inr ⟨none, ?_⟩
      rw [utf8Validate.eq_def]
      simp only [if_neg h1, if_neg hw2, if_neg hw3, if_pos hw]
    | cons b2 rest2 =>
      by_cases hpair : valid4Pair b b2
      · cases rest2 with
        | nil =>
          refine Or.inr ⟨none, ?_⟩
          rw [utf8Validate.eq_def]
          simp only [if_neg h1, if_neg hw2, if_neg hw3, if_pos hw,
            if_pos hpair]
        | cons b3 rest3 =>
          by_cases hcont3 : isCont b3
          · cases rest3 with
            | nil =>
              refine Or.inr ⟨none, ?_⟩
              rw [utf8Validate.eq_def]
              simp only [if_neg h1, if_neg hw2, if_neg hw3, if_pos hw,
                if_pos hpair, if_pos hcont3]
            | cons b4 rest4 =>
              by_cases hcont4 : isCont b4
              · obtain ⟨h3l, h3h⟩ := hcont3
                obtain ⟨h4l, h4h⟩ := hcont4
                have hpair' := hpair
                unfold valid4Pair at hpair'
                refine Or.inl ⟨(b - 0xF0) * 262144 + (b2 - 0x80) * 4096 +
                    (b3 - 0x80) * 64 + (b4 - 0x80), rest4,
                  by unfold IsScalar; omega, ?_⟩
                have he : utf8EncodeSpec
                    ((b - 0xF0) * 262144 + (b2 - 0x80) * 4096 +
                      (b3 - 0x80) * 64 + (b4 - 0x80)) =
                    [0xF0 + ((b - 0xF0) * 262144 + (b2 - 0x80) * 4096 +
                        (b3 - 0x80) * 64 + (b4 - 0x80)) / 262144,
                     0x80 + ((b - 0xF0) * 262144 + (b2 - 0x80) * 4096 +
                        (b3 - 0x80) * 64 + (b4 - 0x80)) / 4096 % 64,
                     0x80 + ((b - 0xF0) * 262144 + (b2 - 0x80) * 4096 +
                        (b3 - 0x80) * 64 + (b4 - 0x80)) / 64 % 64,
                     0x80 + ((b - 0xF0) * 262144 + (b2 - 0x80) * 4096 +
                        (b3 - 0x80) * 64 + (b4 - 0x80)) % 64] := by
                  unfold utf8EncodeSpec
                  rw [if_neg (by omega), if_neg (by omega), if_neg (by omega)]
                simp only [he, List.cons_append, List.nil_append,
                  List.cons.injEq]
                refine ⟨by omega, by omega, by omega, by omega, trivial⟩
              · refine Or.inr ⟨some 3, ?_⟩
                rw [utf8Validate.eq_def]
                simp only [if_neg h1, if_neg hw2, if_neg hw3, if_pos hw,
                  if_pos hpair, if_pos hcont3, if_neg hcont4]
          · refine Or.inr ⟨some 2, ?_⟩
            rw [utf8Validate.eq_def]
            simp only [if_neg h1, if_neg hw2, if_neg hw3, if_pos hw,
              if_pos hpair, if_neg hcont3]
      · refine Or.inr ⟨some 1, ?_⟩
        rw [utf8Validate.eq_def]
        simp only [if_neg h1, if_neg hw2, if_neg hw3, if_pos hw,
          if_neg hpair]
  · have hw : utf8CharWidth b = 0 := by
      unfold utf8CharWidth
      split_ifs <;> omega
    refine Or.inr ⟨some 1, ?_⟩
    rw [utf8Validate.eq_def]
    simp only [if_neg h1, if_neg (show ¬ utf8CharWidth b = 2 by omega),
      if_neg (show ¬ utf8CharWidth b = 3 by omega),
      if_neg (show ¬ utf8CharWidth b = 4 by omega)]

/-- Completeness: the validator accepts every valid chain. -/
theorem validate_none_of_chain {s : List Nat} (h : Utf8Chain s) :
    utf8Validate s = none := by
  induction h with
  | nil => rfl
  | cons c rest hsc hch ih =>
    rw [validate_append_enc c rest hsc, ih]
    rfl

/-- Soundness: every byte sequence the validator accepts is a valid
chain. -/
theorem chain_of_validate : ∀ s : List Nat, utf8Validate s = none →
    Utf8Chain s := by
  have main : ∀ n s, List.length s ≤ n → utf8Validate s = none →
      Utf8Chain s := by
    intro n
    induction n with
    | zero =>
      intro s hs _
      cases s with
      | nil => exact .nil
      | cons b rest => simp at hs
    | succ n ih =>
      intro s hs hv
      cases s with
      | nil => exact .nil
      | cons b rest =>
        rcases head_step b rest with ⟨c, t, hsc, heq⟩ | ⟨el, herr⟩
        · rw [heq] at hv ⊢
          rw [validate_append_enc c t hsc] at hv
          have hvt : utf8Validate t = none := by
            cases hvt' : utf8Validate t with
            | none => rfl
            | some e =>
              rw [hvt'] at hv
              simp at hv
          refine Utf8Chain.cons c t hsc (ih t ?_ hvt)
          have hlen := congrArg List.length heq
          have hL := lenUtf8_pos c
          simp [length_utf8EncodeSpec] at hlen hs ⊢
          omega
        · rw [herr] at hv
          cases hv
  intro s hv
  exact main s.length s le_rfl hv

/-- The error's `valid_up_to` offset marks a valid chain of complete
sequences. -/
theorem chain_take_validUpTo : ∀ s e, utf8Validate s = some e →
    Utf8Chain (s.take e.validUpTo) := by
  have main : ∀ n s e, List.length s ≤ n → utf8Validate s = some e →
      Utf8Chain (s.take e.validUpTo) := by
    intro n
    induction n with
    | zero =>
      intro s e hs hv
      cases s with
      | nil => cases hv
      | cons b rest => simp at hs
    | succ n ih =>
      intro s e hs hv
      cases s with
      | nil => cases hv
      | cons b rest =>
        rcases head_step b rest with ⟨c, t, hsc, heq⟩ | ⟨el, herr⟩
        · rw [heq] at hv ⊢
          rw [validate_append_enc c t hsc] at hv
          cases hvt : utf8Validate t with
          | none =>
            rw [hvt] at hv
            simp at hv
          | some e0 =>
            rw [hvt] at hv
            simp at hv
            rw [← hv]
            have hlen := congrArg List.length heq
            have hL := lenUtf8_pos c
            simp [length_utf8EncodeSpec] at hlen hs
            have htk : (utf8EncodeSpec c ++ t).take (shiftErr (lenUtf8 c) e0).validUpTo =
                utf8EncodeSpec c ++ t.take e0.validUpTo := by
              have hV : (shiftErr (lenUtf8 c) e0).validUpTo =
                  lenUtf8 c + e0.validUpTo := rfl
              rw [hV, List.take_append_eq_append_take,
                List.take_of_length_le (by rw [length_utf8EncodeSpec]; omega),
                length_utf8EncodeSpec, Nat.add_sub_cancel_left]
            rw [htk]
            exact Utf8Chain.cons c _ hsc (ih t e0 (by omega) hvt)
        · rw [herr] at hv
          cases hv
          simp
          exact .nil
  intro s e hv
  exact main s.length s e le_rfl hv

/-- Maximality: no chain-valid prefix of the input extends past the
error's `valid_up_to` offset (so `valid_up_to` is exactly where the first
invalid sequence starts). -/
theorem chain_take_le_validUpTo : ∀ s e, utf8Validate s = some e →
    ∀ p, Utf8Chain (s.take p) → p ≤ e.validUpTo := by
  have main : ∀ n s e, List.length s ≤ n → utf8Validate s = some e →
      ∀ p, Utf8Chain (s.take p) → p ≤ e.validUpTo := by
    intro n
    induction n with
    | zero =>
      intro s e hs hv
      cases s with
      | nil => cases hv
      | cons b rest => simp at hs
    | succ n ih =>
      intro s e hs hv p hcp
      cases s with
      | nil => cases hv
      | cons b rest =>
        generalize hu : (b :: rest).take p = u at hcp
        cases hcp with
        | nil =>
          have hp : p = 0 := by
            cases p with
            | zero => rfl
            | succ p' => simp [List.take] at hu
          omega
        | cons c rest0 hsc hch =>
          have hsplit : b :: rest =
              utf8EncodeSpec c ++ (rest0 ++ (b :: rest).drop p) := by
            conv_lhs => rw [← List.take_append_drop p (b :: rest)]
            rw [hu, List.append_assoc]
          by_cases hp : p ≤ rest.length + 1
          · have hv' := hv
            rw [hsplit, validate_append_enc c _ hsc] at hv'
            cases hvt : utf8Validate (rest0 ++ (b :: rest).drop p) with
            | none =>
              rw [hvt] at hv'
              simp at hv'
            | some e0 =>
              rw [hvt] at hv'
              simp at hv'
              have hlen : min p (rest.length + 1) =
                  lenUtf8 c + rest0.length := by
                have h := congrArg List.length hu
                simpa [length_utf8EncodeSpec] using h
              have hL := lenUtf8_pos c
              have hs' : rest.length + 1 ≤ n + 1 := by simpa using hs
              have htk : (rest0 ++ (b :: rest).drop p).take rest0.length =
                  rest0 := List.take_left rest0 _
              have hdl : ((b :: rest).drop p).length = rest.length + 1 - p := by
                simp
              have hle := ih (rest0 ++ (b :: rest).drop p) e0
                (by simp only [List.length_append, hdl]; omega) hvt
                rest0.length (by rw [htk]; exact hch)
              rw [← hv']
              have hV : (shiftErr (lenUtf8 c) e0).validUpTo =
                  lenUtf8 c + e0.validUpTo := rfl
              rw [hV]
              omega
          · have hall : (b :: rest).take p = b :: rest :=
              List.take_of_length_le (by simp; omega)
            have hchain : Utf8Chain (b :: rest) := by
              rw [← hall, hu]
              exact Utf8Chain.cons c rest0 hsc hch
            rw [validate_none_of_chain hchain] at hv
            cases hv
  intro s e hv
  exact main s.length s e le_rfl hv

/-- Lexicographic byte comparison, the common core of the derived
`Ord for AStr<LEN>` (slice ordering on the byte array) and of
`Ord for str` (byte-wise ordering of the underlying bytes). -/
def sliceCmp : List Nat → List Nat → Ordering
  | [], [] => .eq
  | [], _ :: _ => .lt
  | _ :: _, [] => .gt
  | x :: xs, y :: ys =>
    match compare x y with
    | .eq => sliceCmp xs ys
    | o => o

/-- The derived `Ord`/`PartialOrd` on `AStr<LEN>`: slice ordering of the
wrapped byte array. -/
def astrCmp {LEN : Nat} (a b : AStr LEN) : Ordering :=
  sliceCmp (AStr.as_bytes a) (AStr.as_bytes b)

/-- `Ord for str`: lexicographic ordering of the underlying bytes. -/
def strCmp (s t : List Nat) : Ordering := sliceCmp s t

/-! ### List helpers for concat and repeat -/

theorem getD_append_lt (l l' : List Nat) (j : Nat) (h : j < l.length) :
    (l ++ l').getD j 0 = l.getD j 0 := by
  simp [List.getD_eq_getElem?_getD, List.getElem?_append_left h]

theorem getD_append_ge (l l' : List Nat) (j : Nat) (h : l.length ≤ j) :
    (l ++ l').getD j 0 = l'.getD (j - l.length) 0 := by
  simp [List.getD_eq_getElem?_getD, List.getElem?_append_right h]

theorem getElem_eq_getD (l : List Nat) (i : Nat) (h : i < l.length) :
    l[i] = l.getD i 0 := by
  simp [List.getD_eq_getElem?_getD, List.getElem?_eq_getElem h]

theorem length_flatten_replicate (k : Nat) (e : List Nat) :
    ((List.replicate k e).flatten).length = k * e.length := by
  induction k with
  | zero => simp
  | succ k ih =>
    rw [List.replicate_succ, List.flatten_cons, List.length_append, ih,
      Nat.succ_mul]
    omega

theorem getD_flatten_replicate (k : Nat) (e : List Nat) (j : Nat)
    (hj : j < k * e.length) :
    ((List.replicate k e).flatten).getD j 0 = e.getD (j % e.length) 0 := by
  induction k generalizing j with
  | zero => omega
  | succ k ih =>
    rw [List.replicate_succ, List.flatten_cons]
    by_cases hje : j < e.length
    · rw [getD_append_lt _ _ _ hje, Nat.mod_eq_of_lt hje]
    · have h0 : 0 < e.length := by
        rcases Nat.eq_zero_or_pos e.length with h | h
        · rw [h, Nat.mul_zero] at hj
          omega
        · exact h
      rw [getD_append_ge _ _ _ (by omega)]
      have hmod : (j - e.length) % e.length = j % e.length := by
        conv_rhs => rw [← Nat.sub_add_cancel (by omega : e.length ≤ j),
          Nat.add_mod_right]
      rw [ih (j - e.length) (by rw [Nat.succ_mul] at hj; omega), hmod]

/-- The bytes of `concat_unchecked` (at the correct result length) are the
two operands' bytes appended. -/
theorem concat_unchecked_bytes (LEN B_LEN : Nat) (a : AStr LEN)
    (b : AStr B_LEN) :
    AStr.as_bytes (AStr.concat_unchecked (LEN + B_LEN) a b) =
      AStr.as_bytes a ++ AStr.as_bytes b := by
  unfold AStr.concat_unchecked AStr.as_bytes
  apply List.ext_getElem
  · simp [a.property, b.property]
  · intro i h1 h2
    simp only [List.getElem_ofFn]
    by_cases hi : i < LEN
    · rw [if_pos hi, List.getElem_append_left (by rw [a.property]; exact hi),
        getElem_eq_getD]
    · rw [if_neg hi, List.getElem_append_right (by rw [a.property]; omega),
        getElem_eq_getD]
      rw [a.property]

/-! ### Builder helpers -/

theorem as_bytes_length {LEN : Nat} (a : AStr LEN) :
    (AStr.as_bytes a).length = LEN := a.property

theorem not_boundary_of_gt {l : List Nat} {k : Nat} (h : l.length < k) :
    ¬ isCharBoundary l k := by
  unfold isCharBoundary
  intro hc
  rcases hc with h0 | hm
  · omega
  · rw [List.getElem?_eq_none (by omega)] at hm
    omega

/-- Under the builder invariant, any in-range position at or past the
cursor holds a nul placeholder byte. -/
theorem inv_tail_byte {LEN : Nat} {b : FmtBuilder LEN}
    (hz : ∀ x ∈ (AStr.as_bytes b.buf).drop b.len, x = 0) {j : Nat}
    (hj1 : b.len ≤ j) (hj2 : j < LEN) :
    (AStr.as_bytes b.buf)[j]? = some 0 := by
  have hlen : (AStr.as_bytes b.buf).length = LEN := b.buf.property
  have hdl : j - b.len < ((AStr.as_bytes b.buf).drop b.len).length := by
    rw [List.length_drop]
    omega
  have h1 : ((AStr.as_bytes b.buf).drop b.len)[j - b.len]? =
      (AStr.as_bytes b.buf)[j]? := by
    rw [List.getElem?_drop]
    congr 1
    omega
  have h2 : ((AStr.as_bytes b.buf).drop b.len)[j - b.len]? =
      some (((AStr.as_bytes b.buf).drop b.len)[j - b.len]) :=
    List.getElem?_eq_getElem hdl
  have h3 : ((AStr.as_bytes b.buf).drop b.len)[j - b.len] = 0 :=
    hz _ (List.getElem_mem hdl)
  rw [← h1, h2, h3]

/-- Under the builder invariant the cursor is a char boundary of the
scratch buffer (it is either the end or sits on a nul byte). -/
theorem inv_boundary_offset {LEN : Nat} {b : FmtBuilder LEN}
    (hinv : BuilderInv b) : isCharBoundary (AStr.as_bytes b.buf) b.len := by
  obtain ⟨hle, hz⟩ := hinv
  unfold isCharBoundary
  have hlen : (AStr.as_bytes b.buf).length = LEN := b.buf.property
  by_cases h0 : b.len = 0
  · exact Or.inl h0
  · right
    by_cases hlt : b.len < LEN
    · rw [inv_tail_byte hz le_rfl hlt]
      omega
    · rw [List.getElem?_eq_none (by omega)]
      omega

/-- Under the builder invariant, any in-capacity chunk end is a char
boundary of the tail of the scratch buffer. -/
theorem inv_boundary_chunk {LEN : Nat} {b : FmtBuilder LEN} {k : Nat}
    (hinv : BuilderInv b) (hk : b.len + k ≤ LEN) :
    isCharBoundary ((AStr.as_bytes b.buf).drop b.len) k := by
  obtain ⟨hle, hz⟩ := hinv
  unfold isCharBoundary
  have hlen : (AStr.as_bytes b.buf).length = LEN := b.buf.property
  by_cases h0 : k = 0
  · exact Or.inl h0
  · right
    by_cases hlt : b.len + k < LEN
    · rw [List.getElem?_drop, inv_tail_byte hz (by omega) (by omega)]
      omega
    · rw [List.getElem?_eq_none (by rw [List.length_drop]; omega),
        List.length_drop]
      omega

/-- Successful write: under the invariant, a chunk that fits is copied
into the window `[cursor, cursor + len)` and the cursor advances. -/
theorem write_str_ok {LEN : Nat} (b : FmtBuilder LEN) (s : List Nat)
    (hinv : BuilderInv b) (h1 : b.len + s.length < USIZE)
    (h2 : b.len + s.length ≤ LEN) :
    (FmtBuilder.write_str b s).2 = .ok () ∧
    (FmtBuilder.write_str b s).1.len = b.len + s.length ∧
    AStr.as_bytes (FmtBuilder.write_str b s).1.buf =
      (AStr.as_bytes b.buf).take b.len ++ s ++
        (AStr.as_bytes b.buf).drop (b.len + s.length) := by
  have hb1 := inv_boundary_offset hinv
  have hb2 := inv_boundary_chunk hinv h2
  unfold FmtBuilder.write_str
  rw [if_pos h1, dif_pos hb1, dif_pos hb2]
  exact ⟨rfl, rfl, rfl⟩

/-- A write whose window exceeds capacity (without cursor overflow) fails,
and the failed write leaves the cursor advanced past the capacity
check. -/
theorem write_str_err_of_window {LEN : Nat} (b : FmtBuilder LEN)
    (s : List Nat) (hwin : LEN < b.len + s.length)
    (hof : b.len + s.length < USIZE) :
    (FmtBuilder.write_str b s).2 = .error () ∧
    (FmtBuilder.write_str b s).1.len = b.len + s.length := by
  unfold FmtBuilder.write_str
  rw [if_pos hof]
  by_cases hb1 : isCharBoundary (AStr.as_bytes b.buf) b.len
  · have hble : b.len ≤ LEN := by
      have := isCharBoundary_le hb1
      rw [as_bytes_length] at this
      exact this
    have hb2 : ¬ isCharBoundary ((AStr.as_bytes b.buf).drop b.len)
        s.length := by
      apply not_boundary_of_gt
      rw [List.length_drop, as_bytes_length]
      omega
    rw [dif_pos hb1, dif_neg hb2]
    exact ⟨rfl, rfl⟩
  · rw [dif_neg hb1]
    exact ⟨rfl, rfl⟩

/-- A write never decreases the cursor. -/
theorem write_str_len_mono {LEN : Nat} (b : FmtBuilder LEN) (s : List Nat) :
    b.len ≤ (FmtBuilder.write_str b s).1.len := by
  unfold FmtBuilder.write_str
  split_ifs <;> simp

/-- A write sequence never decreases the cursor. -/
theorem writeAll_len_mono {LEN : Nat} :
    ∀ (chunks : List (List Nat)) (b : FmtBuilder LEN),
      b.len ≤ (writeAll b chunks).1.len := by
  intro chunks
  induction chunks with
  | nil =>
    intro b
    simp [writeAll]
  | cons s rest ih =>
    intro b
    unfold writeAll
    have h1 := write_str_len_mono b s
    cases hw : FmtBuilder.write_str b s with
    | mk b' r =>
      rw [hw] at h1
      cases r with
      | ok u => simpa using le_trans h1 (ih b')
      | error e => simpa using h1

/-- The builder's initial scratch buffer is all nul bytes. -/
theorem repeatBytes_nul (LEN : Nat) :
    repeatBytes LEN 0 = List.replicate LEN 0 := by
  unfold repeatBytes
  have hf : (fun i : Fin LEN =>
      (encodeUtf8Raw 0).getD ((i : Nat) % lenUtf8 0) 0) = fun _ => 0 := by
    funext i
    rw [show lenUtf8 0 = 1 from rfl, Nat.mod_one]
    rfl
  rw [hf, List.ofFn_const]

/-- A fresh builder satisfies the invariant. -/
theorem builderInv_new (LEN : Nat) : BuilderInv (FmtBuilder.new LEN) := by
  constructor
  · show 0 ≤ LEN
    omega
  · intro x hx
    have hb : AStr.as_bytes (FmtBuilder.new LEN).buf =
        List.replicate LEN 0 := repeatBytes_nul LEN
    rw [hb] at hx
    exact List.eq_of_mem_replicate (List.mem_of_mem_drop hx)

/-- A successful write preserves the invariant. -/
theorem builderInv_write {LEN : Nat} (b : FmtBuilder LEN) (s : List Nat)
    (hinv : BuilderInv b) (h1 : b.len + s.length < USIZE)
    (h2 : b.len + s.length ≤ LEN) :
    BuilderInv (FmtBuilder.write_str b s).1 := by
  obtain ⟨hok, hlen, hbytes⟩ := write_str_ok b s hinv h1 h2
  constructor
  · rw [hlen]
    exact h2
  · intro x hx
    rw [hbytes, hlen] at hx
    have hpre : ((AStr.as_bytes b.buf).take b.len ++ s).length =
        b.len + s.length := by
      rw [List.length_append, List.length_take, as_bytes_length]
      have := hinv.1
      omega
    rw [List.drop_left' hpre] at hx
    have hx' : x ∈ (AStr.as_bytes b.buf).drop b.len := by
      have hd : (AStr.as_bytes b.buf).drop (b.len + s.length) =
          ((AStr.as_bytes b.buf).drop b.len).drop s.length := by
        rw [List.drop_drop]
      rw [hd] at hx
      exact List.mem_of_mem_drop hx
    exact hinv.2 x hx'

/-! ### Comparison helpers -/

theorem sliceCmp_eq_iff : ∀ s t : List Nat, sliceCmp s t = .eq ↔ s = t := by
  intro s
  induction s with
  | nil =>
    intro t
    cases t <;> simp [sliceCmp]
  | cons x xs ih =>
    intro t
    cases t with
    | nil => simp [sliceCmp]
    | cons y ys =>
      unfold sliceCmp
      cases hc : compare x y with
      | eq =>
        have hxy : x = y := Nat.compare_eq_eq.mp hc
        simp [ih ys, hxy]
      | lt =>
        have hne : x ≠ y := Nat.ne_of_lt (Nat.compare_eq_lt.mp hc)
        simp [hne]
      | gt =>
        have hne : x ≠ y := Ne.symm (Nat.ne_of_lt (Nat.compare_eq_gt.mp hc))
        simp [hne]

/-! ### Claim theorems -/

/-- Claim C1: for every string `t` whose byte length is exactly `N` and
which is valid UTF-8, the checked constructors `try_from_str_ref` and
`try_from_utf8` on `t`'s bytes return `Ok`, and the text view `as_str` of
the resulting `AStr<N>` equals `t` exactly. -/
theorem c1_round_trip (LEN : Nat) (t : List Nat) (hv : Utf8Chain t)
    (hl : t.length = LEN) :
    AStr.try_from_str_ref LEN t = .ok ⟨t, hl⟩ ∧
    AStr.try_from_utf8 LEN t = .ok ⟨t, hl⟩ ∧
    AStr.as_str ⟨t, hl⟩ = t := by
  refine ⟨?_, ?_, rfl⟩
  · unfold AStr.try_from_str_ref
    rw [dif_pos hl]
  · unfold AStr.try_from_utf8
    rw [dif_pos hl]
    unfold AStr.try_from_utf8_array_ref
    rw [validate_none_of_chain hv]

/-- Witness for C1 at the two-byte string "hi". -/
theorem c1_round_trip_witness :
    Utf8Chain [104, 105] ∧
    AStr.try_from_str_ref 2 [104, 105] = .ok ⟨[104, 105], rfl⟩ ∧
    AStr.try_from_utf8 2 [104, 105] = .ok ⟨[104, 105], rfl⟩ ∧
    AStr.as_str (⟨[104, 105], rfl⟩ : AStr 2) = [104, 105] := by
  have hchain : Utf8Chain [104, 105] := chain_of_validate _ (by decide)
  exact ⟨hchain, c1_round_trip 2 [104, 105] hchain rfl⟩

/-- Claim C4: for every Unicode scalar value `c`, the first `len_utf8 c`
bytes of `encode_utf8_raw c` are exactly the standard UTF-8 encoding of
`c`: 1-byte `0xxxxxxx`, 2-byte leading `110xxxxx`, 3-byte leading
`1110xxxx`, 4-byte leading `11110xxx`, continuation bytes `10xxxxxx`, and
the code point bits distributed per the UTF-8 standard (each tagged
sequence decodes back to `c`). -/
theorem c4_encoder (c : Nat) (hc : IsScalar c) :
    (encodeUtf8Raw c).take (lenUtf8 c) = utf8EncodeSpec c ∧
    (lenUtf8 c = 1 → utf8EncodeSpec c = [c] ∧ c < 0x80) ∧
    (lenUtf8 c = 2 → ∃ b0 b1, utf8EncodeSpec c = [b0, b1] ∧
      0xC0 ≤ b0 ∧ b0 < 0xE0 ∧ 0x80 ≤ b1 ∧ b1 < 0xC0 ∧
      (b0 - 0xC0) * 64 + (b1 - 0x80) = c) ∧
    (lenUtf8 c = 3 → ∃ b0 b1 b2, utf8EncodeSpec c = [b0, b1, b2] ∧
      0xE0 ≤ b0 ∧ b0 < 0xF0 ∧ 0x80 ≤ b1 ∧ b1 < 0xC0 ∧
      0x80 ≤ b2 ∧ b2 < 0xC0 ∧
      (b0 - 0xE0) * 4096 + (b1 - 0x80) * 64 + (b2 - 0x80) = c) ∧
    (lenUtf8 c = 4 → ∃ b0 b1 b2 b3, utf8EncodeSpec c = [b0, b1, b2, b3] ∧
      0xF0 ≤ b0 ∧ b0 < 0xF8 ∧ 0x80 ≤ b1 ∧ b1 < 0xC0 ∧
      0x80 ≤ b2 ∧ b2 < 0xC0 ∧ 0x80 ≤ b3 ∧ b3 < 0xC0 ∧
      (b0 - 0xF0) * 262144 + (b1 - 0x80) * 4096 + (b2 - 0x80) * 64 +
        (b3 - 0x80) = c) := by
  have hcl := scalar_lt hc
  refine ⟨encodeUtf8Raw_take c hcl, ?_, ?_, ?_, ?_⟩
  · intro h1
    have hc1 : c < 0x80 := by
      unfold lenUtf8 at h1
      split_ifs at h1 <;> omega
    exact ⟨by unfold utf8EncodeSpec; rw [if_pos hc1], hc1⟩
  · intro h2
    have hc2 : 0x80 ≤ c ∧ c < 0x800 := by
      unfold lenUtf8 at h2
      split_ifs at h2 <;> omega
    refine ⟨0xC0 + c / 64, 0x80 + c % 64, ?_, by omega, by omega, by omega,
      by omega, by omega⟩
    unfold utf8EncodeSpec
    rw [if_neg (by omega), if_pos (by omega)]
  · intro h3
    have hc3 : 0x800 ≤ c ∧ c < 0x10000 := by
      unfold lenUtf8 at h3
      split_ifs at h3 <;> omega
    refine ⟨0xE0 + c / 4096, 0x80 + c / 64 % 64, 0x80 + c % 64, ?_,
      by omega, by omega, by omega, by omega, by omega, by omega, by omega⟩
    unfold utf8EncodeSpec
    rw [if_neg (by omega), if_neg (by omega), if_pos (by omega)]
  · intro h4
    have hc4 : 0x10000 ≤ c := by
      unfold lenUtf8 at h4
      split_ifs at h4 <;> omega
    refine ⟨0xF0 + c / 262144, 0x80 + c / 4096 % 64, 0x80 + c / 64 % 64,
      0x80 + c % 64, ?_, by omega, by omega, by omega, by omega, by omega,
      by omega, by omega, by omega, by omega⟩
    unfold utf8EncodeSpec
    rw [if_neg (by omega), if_neg (by omega), if_neg (by omega)]

/-- Witness for C4 at U+20AC (the euro sign, a 3-byte character). -/
theorem c4_encoder_witness :
    IsScalar 0x20AC ∧
    (encodeUtf8Raw 0x20AC).take (lenUtf8 0x20AC) = utf8EncodeSpec 0x20AC ∧
    utf8EncodeSpec 0x20AC = [0xE2, 0x82, 0xAC] :=
  ⟨by decide, (c4_encoder 0x20AC (by decide)).1, by decide⟩

/-- Claim C6: `try_from_utf8` returns `Ok` iff the slice has length `N`
and is valid UTF-8; the length check happens first (wrong length gives the
slice-length error even for invalid bytes), and a correct-length slice
with malformed UTF-8 gives a `Utf8` error identifying the first invalid
sequence (the chain-valid prefix ends exactly at `valid_up_to`); it never
panics and produces no value on failure. -/
theorem c6_checked_slice (LEN : Nat) (s : List Nat) :
    ((∃ a, AStr.try_from_utf8 LEN s = .ok a) ↔
      s.length = LEN ∧ Utf8Chain s) ∧
    (s.length ≠ LEN → AStr.try_from_utf8 LEN s = .error .slice) ∧
    (s.length = LEN → ¬ Utf8Chain s →
      ∃ e, AStr.try_from_utf8 LEN s = .error (.utf8 e) ∧
        Utf8Chain (s.take e.validUpTo) ∧
        ∀ p, Utf8Chain (s.take p) → p ≤ e.validUpTo) := by
  refine ⟨⟨?_, ?_⟩, ?_, ?_⟩
  · rintro ⟨a, ha⟩
    unfold AStr.try_from_utf8 at ha
    by_cases hl : s.length = LEN
    · rw [dif_pos hl] at ha
      unfold AStr.try_from_utf8_array_ref at ha
      refine ⟨hl, ?_⟩
      cases hv : utf8Validate s with
      | none => exact chain_of_validate s hv
      | some e =>
        rw [hv] at ha
        cases ha
    · rw [dif_neg hl] at ha
      cases ha
  · rintro ⟨hl, hchain⟩
    refine ⟨⟨s, hl⟩, ?_⟩
    unfold AStr.try_from_utf8
    rw [dif_pos hl]
    unfold AStr.try_from_utf8_array_ref
    rw [validate_none_of_chain hchain]
  · intro hl
    unfold AStr.try_from_utf8
    rw [dif_neg hl]
  · intro hl hnc
    cases hv : utf8Validate s with
    | none => exact absurd (chain_of_validate s hv) hnc
    | some e =>
      refine ⟨e, ?_, chain_take_validUpTo s e hv,
        chain_take_le_validUpTo s e hv⟩
      unfold AStr.try_from_utf8
      rw [dif_pos hl]
      unfold AStr.try_from_utf8_array_ref
      rw [hv]

/-- Witness for C6 at the malformed two-byte slice `[97, 0xFF]`. -/
theorem c6_checked_slice_witness :
    ¬ Utf8Chain [97, 255] ∧
    ∃ e, AStr.try_from_utf8 2 [97, 255] = .error (.utf8 e) ∧
      Utf8Chain (([97, 255] : List Nat).take e.validUpTo) ∧
      ∀ p, Utf8Chain (([97, 255] : List Nat).take p) → p ≤ e.validUpTo := by
  have hnc : ¬ Utf8Chain [97, 255] := fun hcc =>
    absurd (validate_none_of_chain hcc) (by decide)
  exact ⟨hnc, (c6_checked_slice 2 [97, 255]).2.2 rfl hnc⟩

/-- Claim C2: when `RET_LEN = LEN + B_LEN`, `a.concat(b)` returns an
`AStr<RET_LEN>` whose bytes are `a`'s bytes at `[0, LEN)` followed by
`b`'s bytes at `[LEN, LEN + B_LEN)` (i.e. the byte concatenation); when
`RET_LEN ≠ LEN + B_LEN`, `concat` is a hard construction-time failure
(the `assert!` panic, modelled as `none`), not a recoverable error. -/
theorem c2_concat (LEN B_LEN RET_LEN : Nat) (a : AStr LEN) (b : AStr B_LEN) :
    (RET_LEN = LEN + B_LEN → ∃ r : AStr RET_LEN,
      AStr.concat RET_LEN a b = some r ∧
      AStr.as_bytes r = AStr.as_bytes a ++ AStr.as_bytes b) ∧
    (RET_LEN ≠ LEN + B_LEN → AStr.concat RET_LEN a b = none) := by
  constructor
  · intro hret
    subst hret
    refine ⟨AStr.concat_unchecked _ a b, ?_,
      concat_unchecked_bytes LEN B_LEN a b⟩
    unfold AStr.concat
    rw [if_pos rfl]
  · intro hret
    unfold AStr.concat
    rw [if_neg (fun h => hret h.symm)]

/-- Witness for C2: "hello" concatenated with " world" is "hello world";
a result length of 12 (not 5 + 6) panics. -/
theorem c2_concat_witness :
    (∃ r : AStr 11,
      AStr.concat 11 (⟨[104, 101, 108, 108, 111], rfl⟩ : AStr 5)
        (⟨[32, 119, 111, 114, 108, 100], rfl⟩ : AStr 6) = some r ∧
      AStr.as_bytes r =
        [104, 101, 108, 108, 111, 32, 119, 111, 114, 108, 100]) ∧
    AStr.concat 12 (⟨[104, 101, 108, 108, 111], rfl⟩ : AStr 5)
      (⟨[32, 119, 111, 114, 108, 100], rfl⟩ : AStr 6) = none :=
  ⟨(c2_concat 5 6 11 _ _).1 rfl, (c2_concat 5 6 12 _ _).2 (by omega)⟩

/-- Claim C3: for every char `c` with UTF-8 encoded length `L`, when `LEN`
is an exact multiple of `L`, `AStr::<LEN>::repeat(c)` returns the text
consisting of `c` repeated `LEN / L` times, built by tiling
`source[i % L]`; when `LEN` is not a multiple of `L`, `repeat` is a hard
construction-time failure (the `assert!` panic, modelled as `none`). -/
theorem c3_repeat (LEN c : Nat) (hc : IsScalar c) :
    (LEN % lenUtf8 c = 0 → ∃ r : AStr LEN, AStr.repeat LEN c = some r ∧
      AStr.as_bytes r =
        (List.replicate (LEN / lenUtf8 c) (utf8EncodeSpec c)).flatten) ∧
    (LEN % lenUtf8 c ≠ 0 → AStr.repeat LEN c = none) := by
  have hL := lenUtf8_pos c
  have hcl := scalar_lt hc
  constructor
  · intro hmod
    refine ⟨⟨repeatBytes LEN c, by simp [repeatBytes]⟩, ?_, ?_⟩
    · unfold AStr.repeat
      rw [if_pos hmod]
    · show repeatBytes LEN c = _
      have hdvd : LEN / lenUtf8 c * lenUtf8 c = LEN :=
        Nat.div_mul_cancel (Nat.dvd_of_mod_eq_zero hmod)
      apply List.ext_getElem
      · rw [length_flatten_replicate, length_utf8EncodeSpec]
        simp [repeatBytes]
        omega
      · intro i h1 h2
        have hiLEN : i < LEN := by
          simpa [repeatBytes] using h1
        rw [getElem_eq_getD _ _ h2, getElem_eq_getD _ _ h1]
        unfold repeatBytes
        rw [getD_flatten_replicate _ _ _
          (by rw [length_utf8EncodeSpec]; omega), length_utf8EncodeSpec]
        have hgo : (List.ofFn fun i : Fin LEN =>
            (encodeUtf8Raw c).getD ((i : Nat) % lenUtf8 c) 0).getD i 0 =
            (encodeUtf8Raw c).getD (i % lenUtf8 c) 0 := by
          rw [← getElem_eq_getD _ _ (by simpa using hiLEN)]
          simp [List.getElem_ofFn]
        rw [hgo, ← encodeUtf8Raw_take c hcl]
        simp [List.getD_eq_getElem?_getD,
          List.getElem?_take_of_lt (Nat.mod_lt i hL)]
  · intro hmod
    unfold AStr.repeat
    rw [if_neg hmod]

/-- Witness for C3: repeating the 1-byte char at `LEN = 5` gives "aaaaa";
repeating the 2-byte char U+00E4 at `LEN = 20` gives it ten times; and
`LEN = 5` is a panic for a 2-byte char. -/
theorem c3_repeat_witness :
    (∃ r : AStr 5, AStr.repeat 5 97 = some r ∧
      AStr.as_bytes r = [97, 97, 97, 97, 97]) ∧
    (∃ r : AStr 20, AStr.repeat 20 0xE4 = some r ∧
      AStr.as_bytes r = (List.replicate 10 (utf8EncodeSpec 0xE4)).flatten) ∧
    AStr.repeat 5 0xE4 = none :=
  ⟨(c3_repeat 5 97 (by decide)).1 rfl,
   (c3_repeat 20 0xE4 (by decide)).1 rfl,
   (c3_repeat 5 0xE4 (by decide)).2 (by decide)⟩

/-- Claim C5: `finalize` succeeds iff the cursor equals `N` exactly,
producing the completed `AStr<N>`; `try_from_fmt` succeeds with "FA8072"
when the 6 hex characters of `0xFA8072` are formatted into capacity 6
(bytes `[70, 65, 56, 48, 55, 50]`), and fails when the formatted output is
shorter than `N` (the 5 bytes of "hello" into capacity 16) or longer than
`N` (the 11 bytes of "hello world" into capacity 8). -/
theorem c5_finalize_exact :
    (∀ (LEN : Nat) (b : FmtBuilder LEN),
      ((∃ a, FmtBuilder.finalize b = .ok a) ↔ b.len = LEN) ∧
      (b.len = LEN → FmtBuilder.finalize b = .ok b.buf)) ∧
    AStr.try_from_fmt 6 [[70, 65, 56, 48, 55, 50]] =
      .ok ⟨[70, 65, 56, 48, 55, 50], rfl⟩ ∧
    AStr.try_from_fmt 16 [[104, 101, 108, 108, 111]] = .error () ∧
    AStr.try_from_fmt 8
      [[104, 101, 108, 108, 111, 32, 119, 111, 114, 108, 100]] =
      .error () := by
  refine ⟨?_, rfl, rfl, rfl⟩
  intro LEN b
  constructor
  · constructor
    · rintro ⟨a, ha⟩
      unfold FmtBuilder.finalize at ha
      by_cases h : b.len = LEN
      · exact h
      · rw [if_neg h] at ha
        cases ha
    · intro h
      refine ⟨b.buf, ?_⟩
      unfold FmtBuilder.finalize
      rw [if_pos h]
  · intro h
    unfold FmtBuilder.finalize
    rw [if_pos h]

/-- Witness for C5's universal part at a length-0 builder, whose cursor is
already exactly at capacity. -/
theorem c5_finalize_exact_witness :
    FmtBuilder.finalize (FmtBuilder.new 0) = .ok (FmtBuilder.new 0).buf :=
  (c5_finalize_exact.1 0 (FmtBuilder.new 0)).2 rfl

/-- Claim C7: a write of chunk `s` fails with a capacity error exactly
when `cursor + s.len()` overflows or the window
`[cursor, cursor + s.len())` does not fit within `[0, N)`; on success it
copies `s`'s bytes into the scratch buffer at that window and advances
the cursor by `s.len()`.  The hypothesis is the builder invariant, which
holds for every builder reachable through `new` and successful writes
(`builderInv_new`, `builderInv_write`). -/
theorem c7_builder_write (LEN : Nat) (b : FmtBuilder LEN) (s : List Nat)
    (hinv : BuilderInv b) :
    ((FmtBuilder.write_str b s).2 = .error () ↔
      USIZE ≤ b.len + s.length ∨ LEN < b.len + s.length) ∧
    (b.len + s.length < USIZE → b.len + s.length ≤ LEN →
      (FmtBuilder.write_str b s).2 = .ok () ∧
      (FmtBuilder.write_str b s).1.len = b.len + s.length ∧
      AStr.as_bytes (FmtBuilder.write_str b s).1.buf =
        (AStr.as_bytes b.buf).take b.len ++ s ++
          (AStr.as_bytes b.buf).drop (b.len + s.length)) := by
  constructor
  · constructor
    · intro herr
      by_cases h1 : b.len + s.length < USIZE
      · by_cases h2 : b.len + s.length ≤ LEN
        · have hok := (write_str_ok b s hinv h1 h2).1
          rw [hok] at herr
          cases herr
        · exact Or.inr (by omega)
      · exact Or.inl (by omega)
    · intro h
      rcases h with h | h
      · unfold FmtBuilder.write_str
        rw [if_neg (by omega)]
      · by_cases h1 : b.len + s.length < USIZE
        · exact (write_str_err_of_window b s h h1).1
        · unfold FmtBuilder.write_str
          rw [if_neg h1]
  · intro h1 h2
    exact write_str_ok b s hinv h1 h2

/-- Witness for C7 at a fresh length-2 builder and a 1-byte chunk. -/
theorem c7_builder_write_witness :
    BuilderInv (FmtBuilder.new 2) ∧
    (FmtBuilder.write_str (FmtBuilder.new 2) [97]).2 = .ok () ∧
    (FmtBuilder.write_str (FmtBuilder.new 2) [97]).1.len = 1 ∧
    AStr.as_bytes (FmtBuilder.write_str (FmtBuilder.new 2) [97]).1.buf =
      [97, 0] := by
  have hinv := builderInv_new 2
  have h := (c7_builder_write 2 (FmtBuilder.new 2) [97] hinv).2
    (by decide) (by decide)
  exact ⟨hinv, h.1, h.2.1, h.2.2⟩

/-- Counterexample to claim C8 as stated: writing the 2-byte chunk "ab"
into a fresh capacity-1 builder fails the capacity check, yet the failed
write changes the cursor from 0 to 2 — `self.len` is assigned before the
window checks run, so the cursor is NOT left unchanged. -/
theorem c8_counterexample :
    (FmtBuilder.write_str (FmtBuilder.new 1) [97, 98]).2 = .error () ∧
    (FmtBuilder.new 1).len = 0 ∧
    (FmtBuilder.write_str (FmtBuilder.new 1) [97, 98]).1.len = 2 :=
  ⟨rfl, rfl, rfl⟩

/-- Claim C8 (amended): when a write fails, no bytes are copied into the
scratch buffer; but the cursor is only unchanged when the failure is the
`checked_add` overflow — on a window-capacity failure the cursor has
already been advanced to `cursor + s.len()` (this advanced cursor is what
leaves the builder in its failed state). -/
theorem c8_failed_write (LEN : Nat) (b : FmtBuilder LEN) (s : List Nat)
    (herr : (FmtBuilder.write_str b s).2 = .error ()) :
    (FmtBuilder.write_str b s).1.buf = b.buf ∧
    (b.len + s.length < USIZE →
      (FmtBuilder.write_str b s).1.len = b.len + s.length) ∧
    (USIZE ≤ b.len + s.length →
      (FmtBuilder.write_str b s).1.len = b.len) := by
  unfold FmtBuilder.write_str at herr ⊢
  by_cases h1 : b.len + s.length < USIZE
  · rw [if_pos h1] at herr ⊢
    by_cases hb1 : isCharBoundary (AStr.as_bytes b.buf) b.len
    · rw [dif_pos hb1] at herr ⊢
      by_cases hb2 : isCharBoundary ((AStr.as_bytes b.buf).drop b.len)
          s.length
      · rw [dif_pos hb2] at herr
        cases herr
      · rw [dif_neg hb2]
        exact ⟨rfl, fun _ => rfl, fun h => by omega⟩
    · rw [dif_neg hb1]
      exact ⟨rfl, fun _ => rfl, fun h => by omega⟩
  · rw [if_neg h1]
    exact ⟨rfl, fun h => by omega, fun _ => rfl⟩

/-- Witness for the amended C8 at the capacity-1 builder and chunk
"ab". -/
theorem c8_failed_write_witness :
    (FmtBuilder.write_str (FmtBuilder.new 1) [97, 98]).2 = .error () ∧
    (FmtBuilder.write_str (FmtBuilder.new 1) [97, 98]).1.buf =
      (FmtBuilder.new 1).buf ∧
    (FmtBuilder.write_str (FmtBuilder.new 1) [97, 98]).1.len = 2 := by
  have h := c8_failed_write 1 (FmtBuilder.new 1) [97, 98] rfl
  exact ⟨rfl, h.1, h.2.1 (by decide)⟩

/-- Claim C9: the derived byte-wise equality and ordering on `AStr<N>`
agree with the equality and ordering of the text views — `a == b` iff
`a.as_str() == b.as_str()`, and comparing `a` with `b` equals comparing
the text views — so comparisons behave as if they operate purely on the
validated text view. -/
theorem c9_adapters (LEN : Nat) (a b : AStr LEN) :
    (a = b ↔ AStr.as_str a = AStr.as_str b) ∧
    astrCmp a b = strCmp (AStr.as_str a) (AStr.as_str b) ∧
    (astrCmp a b = .eq ↔ AStr.as_str a = AStr.as_str b) := by
  refine ⟨⟨fun h => by rw [h], fun h => Subtype.ext h⟩, rfl, ?_⟩
  exact sliceCmp_eq_iff (AStr.as_bytes a) (AStr.as_bytes b)

/-- Claim C10: once a write has failed because the destination window
exceeded capacity `N` (no cursor overflow), the cursor strictly exceeds
`N`, stays above `N` under every further write sequence, and every
subsequent `finalize` returns an error — the builder can never produce an
`AStr<N>` again. -/
theorem c10_sticky (LEN : Nat) (b : FmtBuilder LEN) (s : List Nat)
    (hwin : LEN < b.len + s.length) (hof : b.len + s.length < USIZE) :
    (FmtBuilder.write_str b s).2 = .error () ∧
    LEN < (FmtBuilder.write_str b s).1.len ∧
    ∀ chunks : List (List Nat),
      LEN < (writeAll (FmtBuilder.write_str b s).1 chunks).1.len ∧
      FmtBuilder.finalize
        (writeAll (FmtBuilder.write_str b s).1 chunks).1 = .error () := by
  obtain ⟨herr, hlen⟩ := write_str_err_of_window b s hwin hof
  have h1 : LEN < (FmtBuilder.write_str b s).1.len := by
    rw [hlen]
    exact hwin
  refine ⟨herr, h1, ?_⟩
  intro chunks
  have h2 := lt_of_lt_of_le h1
    (writeAll_len_mono chunks (FmtBuilder.write_str b s).1)
  refine ⟨h2, ?_⟩
  unfold FmtBuilder.finalize
  rw [if_neg (by omega)]

/-- Witness for C10: overflow the capacity-1 builder with "ab", then write
"c" and finalize — both keep failing. -/
theorem c10_sticky_witness :
    (FmtBuilder.write_str (FmtBuilder.new 1) [97, 98]).2 = .error () ∧
    1 < (FmtBuilder.write_str (FmtBuilder.new 1) [97, 98]).1.len ∧
    1 < (writeAll (FmtBuilder.write_str (FmtBuilder.new 1) [97, 98]).1
      [[99]]).1.len ∧
    FmtBuilder.finalize
      (writeAll (FmtBuilder.write_str (FmtBuilder.new 1) [97, 98]).1
        [[99]]).1 = .error () := by
  have h := c10_sticky 1 (FmtBuilder.new 1) [97, 98] (by decide) (by decide)
  exact ⟨h.1, h.2.1, (h.2.2 [[99]]).1, (h.2.2 [[99]]).2⟩

end AstrVerify
